import Mathlib

/-!
Shallow embedding of the rule-based categorization engine of the
`financial-frontend` dashboard (`src/transaction_manager.py`), together with
proofs of the specified properties.

The embedding models:
  * the regex-based, case-insensitive substring matcher used by
    `apply_category_rules` (including `re.escape` and a small search engine
    for escaped-literal / dot / star patterns, mirroring the
    `Description.str.contains(re.escape(key), case=False, regex=True)` call);
  * the coverage checker `check_missing_rules` (case-sensitive, bidirectional
    plain-substring test);
  * the category-deletion cascade and the rule-edit batch inside
    `show_rules_management`, with the Python dict semantics
    (ordered association list, assignment, deletion, `dict.update`);
  * the sequential S3 load `download_from_s3` with its per-artifact
    session-state assignments;
  * the JSON form of the persisted rules artifact (legacy plain-string
    entries vs. current `{category, last_modified}` objects).
-/

namespace FinFront

/-! ### Characters and plain substring containment -/

/-- Word characters that Python's `re.escape` leaves unescaped:
ASCII letters, digits and the underscore. -/
def isWordChar (c : Char) : Bool := c.isAlphanum || c == '_'

/-- Case-sensitive containment of `needle` as a contiguous run inside `hay`,
the semantics of Python's `needle in hay` on strings. -/
def isSubstrOf (needle : List Char) : List Char → Bool
  | [] => needle.isEmpty
  | hay@(_ :: t) => needle.isPrefixOf hay || isSubstrOf needle t

/-! ### A small regex engine for the patterns the code builds

`apply_category_rules` matches with
`df['Description'].str.contains(re.escape(description), case=False, na=False,
regex=True)`, i.e. `re.search` of an escaped pattern with `IGNORECASE`.
We model the fragment of regular expressions sufficient to make escaping
observable: literal characters (possibly backslash-escaped), the any-char
atom `.`, and the Kleene star on a single atom. -/

/-- A single-character regex atom: a literal character or the any-char dot. -/
inductive RegexBase where
  | lit : Char → RegexBase
  | dot : RegexBase
deriving DecidableEq

/-- An atom together with an optional Kleene star. -/
structure RegexAtom where
  base : RegexBase
  starred : Bool
deriving DecidableEq

/-- Does atom base `b` match character `c`?  `ci` selects case-insensitive
comparison (the `IGNORECASE` flag). -/
def charMatch (ci : Bool) (b : RegexBase) (c : Char) : Bool :=
  match b with
  | .lit l => if ci then l.toLower == c.toLower else l == c
  | .dot => true

/-- All suffixes of `s` reachable by consuming zero or more `b`-matching
characters from the front (the choices of a starred atom). -/
def starSuffixes (ci : Bool) (b : RegexBase) : List Char → List (List Char)
  | [] => [[]]
  | c :: cs => (c :: cs) :: (if charMatch ci b c then starSuffixes ci b cs else [])

mutual

/-- Does the atom sequence match some prefix of `s`?  (`re.match` at the
current position, with the rest of the string unconstrained.) -/
def matchAtoms (ci : Bool) : List RegexAtom → List Char → Bool
  | [], _ => true
  | a :: rest, s =>
    if a.starred then matchAny ci rest (starSuffixes ci a.base s)
    else
      match s with
      | [] => false
      | c :: cs => charMatch ci a.base c && matchAtoms ci rest cs
termination_by atoms _s => (atoms.length, 0, 0)

/-- Does the atom sequence match a prefix of some list in `ss`? -/
def matchAny (ci : Bool) (atoms : List RegexAtom) : List (List Char) → Bool
  | [] => false
  | s :: ss => matchAtoms ci atoms s || matchAny ci atoms ss
termination_by ss => (atoms.length, 1, ss.length)

end

/-- `re.search`: does the pattern match starting at some position of `s`? -/
def reSearch (ci : Bool) (atoms : List RegexAtom) : List Char → Bool
  | [] => matchAtoms ci atoms []
  | s@(_ :: cs) => matchAtoms ci atoms s || reSearch ci atoms cs

/-- Python's `re.escape`: word characters pass through, every other character
receives a backslash. -/
def reEscape : List Char → List Char
  | [] => []
  | c :: cs => if isWordChar c then c :: reEscape cs else '\x5c' :: c :: reEscape cs

/-- Parse a pattern string into atoms: `\c` is the literal `c`, `.` is the
any-char atom, a following `*` stars the preceding atom, any other character
is itself a literal. -/
def parseAtoms : List Char → List RegexAtom
  | [] => []
  | '\x5c' :: d :: '*' :: rest => ⟨.lit d, true⟩ :: parseAtoms rest
  | '\x5c' :: d :: rest => ⟨.lit d, false⟩ :: parseAtoms rest
  | ['\x5c'] => [⟨.lit '\x5c', false⟩]
  | '.' :: '*' :: rest => ⟨.dot, true⟩ :: parseAtoms rest
  | '.' :: rest => ⟨.dot, false⟩ :: parseAtoms rest
  | c :: '*' :: rest => ⟨.lit c, true⟩ :: parseAtoms rest
  | c :: rest => ⟨.lit c, false⟩ :: parseAtoms rest

/-- The containment test the code performs for one rule key against one
description: `re.search(re.escape(key), description, re.IGNORECASE)`,
as run by `Description.str.contains(..., case=False, regex=True)`. -/
def ruleMatches (key : String) (desc : String) : Bool :=
  reSearch true (parseAtoms (reEscape key.data)) desc.data

/-! ### Data model -/

/-- One row of `all_transactions.csv` as loaded into the dataframe:
columns `Date, Description, Amount, Currency, Category, Card, Month, Type,
Memo`.  The amount is modelled as an integer; its value is irrelevant to the
categorization engine. -/
structure Transaction where
  date : String
  description : String
  amount : Int
  currency : String
  category : String
  card : String
  month : String
  txType : String
  memo : String
deriving DecidableEq

/-- A rule value: either the legacy form (a plain category string) or the
current form, a dict `{'category': ..., 'last_modified': ...}`. -/
inductive RuleInfo where
  | legacy : String → RuleInfo
  | current : (category : String) → (lastModified : String) → RuleInfo
deriving DecidableEq

/-- The rule store `category_rules`: a Python dict from description key to
rule value, modelled as an association list in insertion order. -/
abbrev RuleStore := List (String × RuleInfo)

/-- `rule_info['category'] if isinstance(rule_info, dict) else rule_info` -/
def ruleCategory : RuleInfo → String
  | .legacy c => c
  | .current c _ => c

/-! ### Python dict operations on the rule store -/

/-- `d[k]` lookup (`k in d` is `(dictGet d k).isSome`). -/
def dictGet (s : RuleStore) (k : String) : Option RuleInfo :=
  (s.find? (fun p => p.1 == k)).map (fun p => p.2)

/-- `del d[k]`. -/
def dictDel (s : RuleStore) (k : String) : RuleStore :=
  s.filter (fun p => p.1 != k)

/-- `d[k] = v`: overwrite in place when the key exists (keeping its
position), append otherwise. -/
def dictSet (s : RuleStore) (k : String) (v : RuleInfo) : RuleStore :=
  if (s.find? (fun p => p.1 == k)).isSome then
    s.map (fun p => if p.1 == k then (k, v) else p)
  else
    s ++ [(k, v)]

/-- `old.update(new)`: assign every key of `new` into `old`. -/
def dictUpdate (old new : RuleStore) : RuleStore :=
  new.foldl (fun acc p => dictSet acc p.1 p.2) old

/-! ### The categorization engine (`apply_category_rules`) -/

/-- `apply_category_rules(df, rules)`: for each rule, in store order, set the
category of every transaction whose description contains the escaped key
case-insensitively. -/
def apply_category_rules (ts : List Transaction) (rules : RuleStore) :
    List Transaction :=
  rules.foldl
    (fun acc kv =>
      acc.map (fun t =>
        if ruleMatches kv.1 t.description then
          { t with category := ruleCategory kv.2 }
        else t))
    ts

/-! ### The coverage checker (`check_missing_rules`) -/

/-- One row of the `missing_rules` report. -/
structure MissingRule where
  description : String
  category : String
  count : Nat
deriving DecidableEq

/-- Deduplication keeping first occurrences, with the set of already-seen
values carried along. -/
def uniqueAux (seen : List String) : List String → List String
  | [] => []
  | x :: xs =>
    if seen.contains x then uniqueAux seen xs
    else x :: uniqueAux (x :: seen) xs

/-- `df['Description'].unique()`: distinct values in order of first
occurrence. -/
def uniqueList (l : List String) : List String := uniqueAux [] l

/-- The coverage test of `check_missing_rules`: some rule key is a
case-sensitive substring of the description or vice versa
(`rule_desc in desc or desc in rule_desc`). -/
def ruleCovers (rules : RuleStore) (desc : String) : Bool :=
  rules.any (fun kv =>
    isSubstrOf kv.1.data desc.data || isSubstrOf desc.data kv.1.data)

/-- `check_missing_rules(df, rules)`: for each distinct description with no
covering rule, report it with the category of its first transaction and the
number of transactions bearing it. -/
def check_missing_rules (ts : List Transaction) (rules : RuleStore) :
    List MissingRule :=
  (uniqueList (ts.map (fun t => t.description))).filterMap (fun d =>
    if ruleCovers rules d then none
    else some
      { description := d
        category :=
          ((ts.find? (fun t => t.description == d)).map
            (fun t => t.category)).getD ""
        count := (ts.filter (fun t => t.description == d)).length })

/-! ### Category deletion (`show_rules_management`, save-categories branch) -/

/-- Clear a rule's category, keeping its form and timestamp:
`rules[desc]['category'] = ''` for dicts, `rules[desc] = ''` for legacy
strings. -/
def clearRuleCategory : RuleInfo → RuleInfo
  | .legacy _ => .legacy ""
  | .current _ t => .current "" t

/-- The transaction loop of the deletion branch:
`for category in deleted_categories: df.loc[df['Category'] == category,
'Category'] = ''`. -/
def clearTxCategories (deleted : List String) (ts : List Transaction) :
    List Transaction :=
  deleted.foldl
    (fun acc c =>
      acc.map (fun t => if t.category == c then { t with category := "" } else t))
    ts

/-- `deleted_categories`: the names of the rows marked for deletion. -/
def deletedNames (edited : List (String × Bool)) : List String :=
  (edited.filter (fun r => r.2)).map (fun r => r.1)

/-- The names of the rows not marked for deletion. -/
def keptNames (edited : List (String × Bool)) : List String :=
  (edited.filter (fun r => !r.2)).map (fun r => r.1)

/-- The save-categories branch of `show_rules_management`, applied to the
edited category table (rows of `(name, delete-flag)`), the rules and the
transactions.  Returns the new registry, rules and transactions. -/
def delete_categories (edited : List (String × Bool)) (rules : RuleStore)
    (ts : List Transaction) : List String × RuleStore × List Transaction :=
  let deleted := deletedNames edited
  let newCategories := (keptNames edited).filter (fun c => c.trim != "")
  let ts2 :=
    if deleted.isEmpty then ts else clearTxCategories deleted ts
  let rules2 :=
    if deleted.isEmpty then rules
    else rules.map (fun kv =>
      if deleted.contains (ruleCategory kv.2) then (kv.1, clearRuleCategory kv.2)
      else kv)
  (newCategories, rules2, ts2)

/-! ### The rule-edit batch (`show_rules_management`, update-rules branch) -/

/-- One row of the rules editor. -/
structure RuleEdit where
  description : String
  category : String
  delete : Bool
deriving DecidableEq

/-- The update-rules loop: starting from `rules.copy()`, delete rows marked
for deletion, rewrite a present key only when the category changed (stamping
`now`), insert absent keys (stamping `now`). -/
def apply_rule_edits (rules : RuleStore) (now : String)
    (edits : List RuleEdit) : RuleStore :=
  edits.foldl
    (fun nr e =>
      if e.delete then dictDel nr e.description
      else
        match dictGet nr e.description with
        | some ri =>
          if e.category != ruleCategory ri then
            dictSet nr e.description (.current e.category now)
          else nr
        | none => dictSet nr e.description (.current e.category now))
    rules

/-- What a later reader of `st.session_state.category_rules` observes after
the update-rules branch: `main` wires
`on_rule_update = lambda new_rules: st.session_state.category_rules.update(new_rules)`,
so the edited store is merged into the session store with `dict.update`. -/
def observed_rules_after_edits (rules : RuleStore) (now : String)
    (edits : List RuleEdit) : RuleStore :=
  dictUpdate rules (apply_rule_edits rules now edits)

/-! ### The bulk load (`download_from_s3`) -/

/-- The in-memory session state mutated by the load. -/
structure SessionState where
  transactions : Option (List Transaction)
  categories : List String
  rules : RuleStore
deriving DecidableEq

/-- The three S3 fetches, each either succeeding with its artifact or
failing with an error message. -/
structure S3Data where
  txs : Except String (List Transaction)
  cats : Except String (List String)
  rls : Except String RuleStore

/-- `download_from_s3`: fetch and assign the transactions, then the
categories, then the rules; the first failure aborts (returning `false`)
with everything already assigned left in place. -/
def download_from_s3 (s3 : S3Data) (st : SessionState) :
    SessionState × Bool :=
  match s3.txs with
  | .error _ => (st, false)
  | .ok ts =>
    let st1 := { st with transactions := some ts }
    match s3.cats with
    | .error _ => (st1, false)
    | .ok cs =>
      let st2 := { st1 with categories := cs }
      match s3.rls with
      | .error _ => (st2, false)
      | .ok rs => ({ st2 with rules := rs }, true)

/-! ### The persisted rules artifact (`category_rules.json`) -/

/-- The JSON fragment the rules artifact lives in: strings and objects. -/
inductive JValue where
  | str : String → JValue
  | obj : List (String × JValue) → JValue

/-- Field lookup in a JSON object. -/
def jLookup (fields : List (String × JValue)) (k : String) : Option JValue :=
  (fields.find? (fun p => p.1 == k)).map (fun p => p.2)

/-- Interpret one rule entry as the code does: a JSON string is a legacy
rule, an object is read through its `category` / `last_modified` fields. -/
def decodeRuleInfo : JValue → Option RuleInfo
  | .str c => some (.legacy c)
  | .obj fs =>
    match jLookup fs "category", jLookup fs "last_modified" with
    | some (.str c), some (.str t) => some (.current c t)
    | _, _ => none

/-- The JSON form `json.dumps` writes for one rule entry: legacy rules stay
plain strings, current rules are two-field objects. -/
def encodeRuleInfo : RuleInfo → JValue
  | .legacy c => .str c
  | .current c t => .obj [("category", .str c), ("last_modified", .str t)]

/-- `json.loads` of the rules artifact, interpreted entrywise. -/
def decodeRules : JValue → Option RuleStore
  | .obj fs => fs.mapM (fun kv => (decodeRuleInfo kv.2).map (fun ri => (kv.1, ri)))
  | .str _ => none

/-- `json.dumps` of the in-memory rule store. -/
def encodeRules (s : RuleStore) : JValue :=
  .obj (s.map (fun kv => (kv.1, encodeRuleInfo kv.2)))

/-- Discriminator: is a JSON value an object? -/
def isObjJ : JValue → Bool
  | .obj _ => true
  | .str _ => false

/-- The category a transaction with description `d` and prior category `c`
ends up with after the rule loop of `apply_category_rules`. -/
def catAfter (rules : RuleStore) (d : String) (c : String) : String :=
  rules.foldl (fun acc kv => if ruleMatches kv.1 d then ruleCategory kv.2 else acc) c

/-! ## Lemmas: the escaped-regex containment test is literal case-insensitive
substring containment -/

theorem reEscape_ne_star (l : List Char) : ∀ r, reEscape l ≠ '*' :: r := by
  cases l with
  | nil => intro r h; simp [reEscape] at h
  | cons c cs =>
    intro r h
    by_cases hw : isWordChar c = true
    · simp only [reEscape, hw, if_pos] at h
      have hc : c = '*' := (List.cons.injEq _ _ _ _ ▸ h).1
      subst hc
      simp [isWordChar, Char.isAlphanum, Char.isAlpha, Char.isDigit] at hw
    · simp only [reEscape, hw, if_neg, Bool.not_eq_true] at h
      have : '\x5c' = '*' := (List.cons.injEq _ _ _ _ ▸ h).1
      simp at this

theorem parseAtoms_word (c : Char) (rest : List Char) (h1 : c ≠ '\x5c')
    (h2 : c ≠ '.') (h3 : ∀ r, rest ≠ '*' :: r) :
    parseAtoms (c :: rest) = ⟨.lit c, false⟩ :: parseAtoms rest := by
  rw [parseAtoms.eq_def]
  split <;> simp_all

theorem parseAtoms_esc (c : Char) (rest : List Char)
    (h3 : ∀ r, rest ≠ '*' :: r) :
    parseAtoms ('\x5c' :: c :: rest) = ⟨.lit c, false⟩ :: parseAtoms rest := by
  rw [parseAtoms.eq_def]
  split
  all_goals try simp_all
  · rename_i hne hdot heq
    exact absurd heq.1.symm hne
  · rename_i ha hb hc hd heq
    exact absurd heq.2.symm (ha c rest heq.1.symm)

/-- `re.escape` turns every character into an unstarred literal atom. -/
theorem parse_reEscape (l : List Char) :
    parseAtoms (reEscape l) = l.map (fun c => (⟨.lit c, false⟩ : RegexAtom)) := by
  induction l with
  | nil => rfl
  | cons c cs ih =>
    by_cases hw : isWordChar c = true
    · have h1 : c ≠ '\x5c' := by
        intro h; subst h
        simp [isWordChar, Char.isAlphanum, Char.isAlpha, Char.isDigit] at hw
      have h2 : c ≠ '.' := by
        intro h; subst h
        simp [isWordChar, Char.isAlphanum, Char.isAlpha, Char.isDigit] at hw
      simp only [reEscape, hw, if_pos, List.map]
      rw [parseAtoms_word c _ h1 h2 (reEscape_ne_star cs), ih]
    · simp only [reEscape, hw, if_neg, Bool.not_eq_true, List.map]
      rw [parseAtoms_esc c _ (reEscape_ne_star cs), ih]

theorem matchAtoms_lit (k : List Char) : ∀ s : List Char,
    matchAtoms true (k.map (fun c => (⟨.lit c, false⟩ : RegexAtom))) s
      = (k.map Char.toLower).isPrefixOf (s.map Char.toLower) := by
  induction k with
  | nil => intro s; simp [matchAtoms]
  | cons a ks ih =>
    intro s
    cases s with
    | nil => simp [matchAtoms, List.isPrefixOf]
    | cons b bs =>
      simp [matchAtoms, charMatch, ih, List.isPrefixOf]

theorem reSearch_lit (k : List Char) : ∀ s : List Char,
    reSearch true (k.map (fun c => (⟨.lit c, false⟩ : RegexAtom))) s
      = isSubstrOf (k.map Char.toLower) (s.map Char.toLower) := by
  intro s
  induction s with
  | nil =>
    cases k with
    | nil => simp [reSearch, matchAtoms, isSubstrOf]
    | cons a ks => simp [reSearch, matchAtoms, isSubstrOf, List.isPrefixOf]
  | cons c cs ih =>
    simp only [reSearch, List.map, isSubstrOf, matchAtoms_lit]
    rw [ih]

/-- The code's containment test, with escaping and the ignore-case flag,
computes literal case-insensitive substring containment. -/
theorem ruleMatches_eq_substr (key d : String) :
    ruleMatches key d
      = isSubstrOf (key.data.map Char.toLower) (d.data.map Char.toLower) := by
  unfold ruleMatches
  rw [parse_reEscape, reSearch_lit]

theorem isSubstrOf_iff (n : List Char) : ∀ h : List Char,
    isSubstrOf n h = true ↔ n <:+: h := by
  intro h
  induction h with
  | nil => simp [isSubstrOf]
  | cons c t ih =>
    simp only [isSubstrOf, Bool.or_eq_true, ih, List.infix_cons_iff,
       List.isPrefixOf_iff_prefix]

theorem ruleMatches_iff (key d : String) :
    ruleMatches key d = true ↔
      (key.data.map Char.toLower) <:+: (d.data.map Char.toLower) := by
  rw [ruleMatches_eq_substr, isSubstrOf_iff]

/-! ## Lemmas: pointwise form of `apply_category_rules` -/

/-- The bulk categorization acts transaction-by-transaction, rewriting only
the category field. -/
theorem apply_category_rules_eq_map (rules : RuleStore) : ∀ ts,
    apply_category_rules ts rules
      = ts.map (fun t => { t with category := catAfter rules t.description t.category }) := by
  induction rules with
  | nil =>
    intro ts
    simp [apply_category_rules, catAfter]
  | cons kv rest ih =>
    intro ts
    simp only [apply_category_rules, List.foldl_cons] at ih ⊢
    rw [ih, List.map_map]
    refine congrArg (fun f => List.map f ts) (funext fun t => ?_)
    by_cases hm : ruleMatches kv.1 t.description <;>
      simp [hm, catAfter, Function.comp]

theorem catAfter_cases (d : String) : ∀ (rules : RuleStore) (c : String),
    catAfter rules d c = c
      ∨ ∃ kv ∈ rules, ruleMatches kv.1 d = true ∧ catAfter rules d c = ruleCategory kv.2 := by
  intro rules
  induction rules with
  | nil => intro c; exact Or.inl rfl
  | cons kv rest ih =>
    intro c
    by_cases hm : ruleMatches kv.1 d = true
    · rcases ih (ruleCategory kv.2) with h | ⟨kv', hmem, hm', he⟩
      · refine Or.inr ⟨kv, List.mem_cons_self _ _, hm, ?_⟩
        simpa [catAfter, hm] using h
      · refine Or.inr ⟨kv', List.mem_cons_of_mem _ hmem, hm', ?_⟩
        simpa [catAfter, hm] using he
    · rcases ih c with h | ⟨kv', hmem, hm', he⟩
      · refine Or.inl ?_
        simpa [catAfter, hm] using h
      · refine Or.inr ⟨kv', List.mem_cons_of_mem _ hmem, hm', ?_⟩
        simpa [catAfter, hm] using he

theorem catAfter_of_no_match (d : String) :
    ∀ (rules : RuleStore) (c : String),
      (∀ kv ∈ rules, ruleMatches kv.1 d = false) → catAfter rules d c = c := by
  intro rules
  induction rules with
  | nil => intro c _; rfl
  | cons kv rest ih =>
    intro c h
    have hm : ruleMatches kv.1 d = false := h kv (List.mem_cons_self _ _)
    have := ih c (fun kv' hk => h kv' (List.mem_cons_of_mem _ hk))
    simpa [catAfter, hm] using this

theorem catAfter_of_match (d : String) :
    ∀ (rules : RuleStore),
      (∃ kv ∈ rules, ruleMatches kv.1 d = true) →
      ∀ c1 c2, catAfter rules d c1 = catAfter rules d c2 := by
  intro rules
  induction rules with
  | nil => rintro ⟨kv, hk, _⟩; cases hk
  | cons kv rest ih =>
    rintro ⟨kv', hmem, hm'⟩ c1 c2
    by_cases hm : ruleMatches kv.1 d = true
    · simp [catAfter, hm]
    · rcases List.mem_cons.mp hmem with rfl | hmem'
      · exact absurd hm' hm
      · have := ih ⟨kv', hmem', hm'⟩ c1 c2
        simpa [catAfter, hm] using this

theorem catAfter_idem (rules : RuleStore) (d c : String) :
    catAfter rules d (catAfter rules d c) = catAfter rules d c := by
  by_cases h : ∃ kv ∈ rules, ruleMatches kv.1 d = true
  · exact catAfter_of_match d rules h _ c
  · push_neg at h
    have h' : ∀ kv ∈ rules, ruleMatches kv.1 d = false := by
      intro kv hk
      exact Bool.not_eq_true _ ▸ (h kv hk)
    rw [catAfter_of_no_match d rules c h', catAfter_of_no_match d rules c h']

/-! ## Demo data used by the witness theorems -/

/-- A transaction with the spec's scenario description. -/
def demoTx : Transaction :=
  { date := "2024-01-01", description := "STARBUCKKS #1234 SEATTLE WA"
    amount := 6, currency := "USD", category := "", card := "Visa"
    month := "2024-01", txType := "Sale", memo := "" }

/-- The spec's scenario rule store. -/
def demoRules : RuleStore := [("STARBUCKKS", .current "Food & Drink" "T1")]

/-! ## C2 -/

/-- C2: if bulk categorization with rule set `R` assigns a category to a
transaction, then some rule of `R` has a key that is a case-insensitive
substring of the transaction's description (or vice versa) and the assigned
category is that rule's category.  (Assignment is witnessed by the category
differing from the original; the matching rule found is the last one whose
key is contained in the description.) -/
theorem bulk_categorization_sound (rules : RuleStore) (ts : List Transaction)
    (i : Nat) (hi : i < ts.length) :
    ∃ hi' : i < (apply_category_rules ts rules).length,
      ((apply_category_rules ts rules).get ⟨i, hi'⟩).category
          = (ts.get ⟨i, hi⟩).category
        ∨ ∃ kv ∈ rules,
            ((kv.1.data.map Char.toLower) <:+:
                ((ts.get ⟨i, hi⟩).description.data.map Char.toLower)
              ∨ ((ts.get ⟨i, hi⟩).description.data.map Char.toLower) <:+:
                  (kv.1.data.map Char.toLower))
            ∧ ((apply_category_rules ts rules).get ⟨i, hi'⟩).category
                = ruleCategory kv.2 := by
  have hlen : (apply_category_rules ts rules).length = ts.length := by
    rw [apply_category_rules_eq_map]
    exact List.length_map _ _
  refine ⟨by omega, ?_⟩
  have hget : ((apply_category_rules ts rules).get ⟨i, by omega⟩).category
      = catAfter rules (ts.get ⟨i, hi⟩).description (ts.get ⟨i, hi⟩).category := by
    simp [apply_category_rules_eq_map, List.get_eq_getElem]
  rw [hget]
  rcases catAfter_cases (ts.get ⟨i, hi⟩).description rules (ts.get ⟨i, hi⟩).category
    with h | ⟨kv, hmem, hm, he⟩
  · exact Or.inl h
  · exact Or.inr ⟨kv, hmem, Or.inl ((ruleMatches_iff _ _).mp hm), he⟩

/-- Witness for C2 at the spec's scenario data. -/
theorem bulk_categorization_sound_witness :
    ∃ hi' : 0 < (apply_category_rules [demoTx] demoRules).length,
      ((apply_category_rules [demoTx] demoRules).get ⟨0, hi'⟩).category
          = (([demoTx] : List Transaction).get ⟨0, by decide⟩).category
        ∨ ∃ kv ∈ demoRules,
            ((kv.1.data.map Char.toLower) <:+:
                ((([demoTx] : List Transaction).get ⟨0, by decide⟩).description.data.map Char.toLower)
              ∨ ((([demoTx] : List Transaction).get ⟨0, by decide⟩).description.data.map Char.toLower) <:+:
                  (kv.1.data.map Char.toLower))
            ∧ ((apply_category_rules [demoTx] demoRules).get ⟨0, hi'⟩).category
                = ruleCategory kv.2 :=
  bulk_categorization_sound demoRules [demoTx] 0 (by decide)

/-! ## C3 -/

/-- C3: bulk categorization preserves the number of transactions, changes no
field other than the category of any transaction, and leaves the category of
a transaction untouched when no rule key is a case-insensitive substring of
its description. -/
theorem bulk_categorization_frame (rules : RuleStore) (ts : List Transaction) :
    (apply_category_rules ts rules).length = ts.length
    ∧ ∀ (i : Nat) (hi : i < ts.length)
        (hi' : i < (apply_category_rules ts rules).length),
        (((apply_category_rules ts rules).get ⟨i, hi'⟩).date
            = (ts.get ⟨i, hi⟩).date
          ∧ ((apply_category_rules ts rules).get ⟨i, hi'⟩).description
              = (ts.get ⟨i, hi⟩).description
          ∧ ((apply_category_rules ts rules).get ⟨i, hi'⟩).amount
              = (ts.get ⟨i, hi⟩).amount
          ∧ ((apply_category_rules ts rules).get ⟨i, hi'⟩).currency
              = (ts.get ⟨i, hi⟩).currency
          ∧ ((apply_category_rules ts rules).get ⟨i, hi'⟩).card
              = (ts.get ⟨i, hi⟩).card
          ∧ ((apply_category_rules ts rules).get ⟨i, hi'⟩).month
              = (ts.get ⟨i, hi⟩).month
          ∧ ((apply_category_rules ts rules).get ⟨i, hi'⟩).txType
              = (ts.get ⟨i, hi⟩).txType
          ∧ ((apply_category_rules ts rules).get ⟨i, hi'⟩).memo
              = (ts.get ⟨i, hi⟩).memo)
        ∧ ((∀ kv ∈ rules,
              ¬ ((kv.1.data.map Char.toLower) <:+:
                  ((ts.get ⟨i, hi⟩).description.data.map Char.toLower)))
            → ((apply_category_rules ts rules).get ⟨i, hi'⟩).category
                = (ts.get ⟨i, hi⟩).category) := by
  have hlen : (apply_category_rules ts rules).length = ts.length := by
    rw [apply_category_rules_eq_map]
    exact List.length_map _ _
  refine ⟨hlen, fun i hi hi' => ?_⟩
  have hget : (apply_category_rules ts rules).get ⟨i, hi'⟩
      = { ts.get ⟨i, hi⟩ with
          category := catAfter rules (ts.get ⟨i, hi⟩).description
            (ts.get ⟨i, hi⟩).category } := by
    simp [apply_category_rules_eq_map, List.get_eq_getElem]
  refine ⟨by rw [hget]; exact ⟨rfl, rfl, rfl, rfl, rfl, rfl, rfl, rfl⟩, ?_⟩
  intro hnone
  rw [hget]
  show catAfter rules (ts.get ⟨i, hi⟩).description (ts.get ⟨i, hi⟩).category
      = (ts.get ⟨i, hi⟩).category
  refine catAfter_of_no_match _ rules _ (fun kv hk => ?_)
  have := hnone kv hk
  rw [← ruleMatches_iff] at this
  exact Bool.not_eq_true _ ▸ this

/-- Witness for C3 at the spec's scenario data. -/
theorem bulk_categorization_frame_witness :
    (apply_category_rules [demoTx] demoRules).length = ([demoTx] : List Transaction).length
    ∧ ∀ (i : Nat) (hi : i < ([demoTx] : List Transaction).length)
        (hi' : i < (apply_category_rules [demoTx] demoRules).length),
        (((apply_category_rules [demoTx] demoRules).get ⟨i, hi'⟩).date
            = (([demoTx] : List Transaction).get ⟨i, hi⟩).date
          ∧ ((apply_category_rules [demoTx] demoRules).get ⟨i, hi'⟩).description
              = (([demoTx] : List Transaction).get ⟨i, hi⟩).description
          ∧ ((apply_category_rules [demoTx] demoRules).get ⟨i, hi'⟩).amount
              = (([demoTx] : List Transaction).get ⟨i, hi⟩).amount
          ∧ ((apply_category_rules [demoTx] demoRules).get ⟨i, hi'⟩).currency
              = (([demoTx] : List Transaction).get ⟨i, hi⟩).currency
          ∧ ((apply_category_rules [demoTx] demoRules).get ⟨i, hi'⟩).card
              = (([demoTx] : List Transaction).get ⟨i, hi⟩).card
          ∧ ((apply_category_rules [demoTx] demoRules).get ⟨i, hi'⟩).month
              = (([demoTx] : List Transaction).get ⟨i, hi⟩).month
          ∧ ((apply_category_rules [demoTx] demoRules).get ⟨i, hi'⟩).txType
              = (([demoTx] : List Transaction).get ⟨i, hi⟩).txType
          ∧ ((apply_category_rules [demoTx] demoRules).get ⟨i, hi'⟩).memo
              = (([demoTx] : List Transaction).get ⟨i, hi⟩).memo)
        ∧ ((∀ kv ∈ demoRules,
              ¬ ((kv.1.data.map Char.toLower) <:+:
                  ((([demoTx] : List Transaction).get ⟨i, hi⟩).description.data.map Char.toLower)))
            → ((apply_category_rules [demoTx] demoRules).get ⟨i, hi'⟩).category
                = (([demoTx] : List Transaction).get ⟨i, hi⟩).category) :=
  bulk_categorization_frame demoRules [demoTx]

/-! ## C8 -/

/-- C8: bulk categorization is idempotent — applying the same rule set a
second time, with no edits in between, changes no category assignment. -/
theorem bulk_categorization_idempotent (ts : List Transaction) (rules : RuleStore) :
    apply_category_rules (apply_category_rules ts rules) rules
      = apply_category_rules ts rules := by
  simp only [apply_category_rules_eq_map]
  rw [List.map_map]
  refine congrArg (fun f => List.map f ts) (funext fun t => ?_)
  simp [Function.comp, catAfter_idem]

/-! ## C7: the coverage checker -/

theorem mem_uniqueAux (a : String) : ∀ (xs seen : List String),
    a ∈ uniqueAux seen xs ↔ a ∈ xs ∧ a ∉ seen := by
  intro xs
  induction xs with
  | nil => intro seen; simp [uniqueAux]
  | cons x t ih =>
    intro seen
    by_cases hc : seen.contains x = true
    · have hxseen : x ∈ seen := by
        simpa using hc
      simp only [uniqueAux, hc, if_pos, ih, List.mem_cons]
      constructor
      · rintro ⟨ha, hs⟩; exact ⟨Or.inr ha, hs⟩
      · rintro ⟨ha | ha, hs⟩
        · exact absurd (ha ▸ hxseen) hs
        · exact ⟨ha, hs⟩
    · have hxseen : x ∉ seen := by
        simpa using hc
      simp only [uniqueAux, hc, if_neg, Bool.not_eq_true, List.mem_cons, ih]
      by_cases hax : a = x
      · subst hax; simp [hxseen]
      · simp [hax]

theorem nodup_uniqueAux : ∀ (xs seen : List String), (uniqueAux seen xs).Nodup := by
  intro xs
  induction xs with
  | nil => intro seen; simp [uniqueAux]
  | cons x t ih =>
    intro seen
    by_cases hc : seen.contains x = true
    · rw [uniqueAux, if_pos hc]
      exact ih seen
    · rw [uniqueAux, if_neg hc]
      refine List.nodup_cons.mpr ⟨?_, ih (x :: seen)⟩
      rw [mem_uniqueAux]
      simp

theorem mem_uniqueList (a : String) (l : List String) :
    a ∈ uniqueList l ↔ a ∈ l := by
  rw [uniqueList, mem_uniqueAux]
  simp

theorem nodup_uniqueList (l : List String) : (uniqueList l).Nodup :=
  nodup_uniqueAux l []

/-- The descriptions reported by the coverage checker are exactly the
uncovered entries of the distinct-description list. -/
theorem check_missing_map_desc (ts : List Transaction) (rules : RuleStore) :
    (check_missing_rules ts rules).map (fun e => e.description)
      = (uniqueList (ts.map (fun t => t.description))).filter
          (fun d => !(ruleCovers rules d)) := by
  rw [check_missing_rules]
  generalize uniqueList (ts.map (fun t => t.description)) = l
  induction l with
  | nil => rfl
  | cons d t ih =>
    by_cases hc : ruleCovers rules d = true <;>
      simp [List.filterMap_cons, List.filter_cons, hc, ih]

/-- C7: the coverage checker reports exactly the distinct transaction
descriptions covered by no rule under the case-sensitive bidirectional
substring test, each exactly once, annotated with the category of the first
transaction bearing the description and with the number of transactions
bearing it. -/
theorem check_missing_rules_exact (ts : List Transaction) (rules : RuleStore) :
    ((check_missing_rules ts rules).map (fun e => e.description)).Nodup
    ∧ (∀ d : String,
        (∃ e ∈ check_missing_rules ts rules, e.description = d)
          ↔ ((∃ t ∈ ts, t.description = d)
              ∧ ∀ kv ∈ rules, ¬ (kv.1.data <:+: d.data) ∧ ¬ (d.data <:+: kv.1.data)))
    ∧ (∀ e ∈ check_missing_rules ts rules,
        e.count = ts.countP (fun t => t.description == e.description)
        ∧ ∃ t, ts.find? (fun t' => t'.description == e.description) = some t
            ∧ e.category = t.category) := by
  have hcov : ∀ d : String, (ruleCovers rules d = false)
      ↔ ∀ kv ∈ rules, ¬ (kv.1.data <:+: d.data) ∧ ¬ (d.data <:+: kv.1.data) := by
    intro d
    rw [ruleCovers, List.any_eq_false]
    constructor
    · intro h kv hk
      have h1 := h kv hk
      constructor
      · intro hco
        exact h1 (by simp [(isSubstrOf_iff _ _).mpr hco])
      · intro hco
        exact h1 (by simp [(isSubstrOf_iff _ _).mpr hco])
    · intro h kv hk
      have h2 := h kv hk
      have e1 : isSubstrOf kv.1.data d.data = false := by
        cases hs : isSubstrOf kv.1.data d.data
        · rfl
        · exact absurd ((isSubstrOf_iff _ _).mp hs) h2.1
      have e2 : isSubstrOf d.data kv.1.data = false := by
        cases hs : isSubstrOf d.data kv.1.data
        · rfl
        · exact absurd ((isSubstrOf_iff _ _).mp hs) h2.2
      simp [e1, e2]
  refine ⟨?_, ?_, ?_⟩
  · rw [check_missing_map_desc]
    exact List.Nodup.filter _ (nodup_uniqueList _)
  · intro d
    have hmem : (∃ e ∈ check_missing_rules ts rules, e.description = d)
        ↔ d ∈ (check_missing_rules ts rules).map (fun e => e.description) := by
      simp [List.mem_map]
    rw [hmem, check_missing_map_desc, List.mem_filter, mem_uniqueList]
    simp only [Bool.not_eq_true', List.mem_map]
    rw [hcov d]
  · intro e he
    rw [check_missing_rules] at he
    rcases List.mem_filterMap.mp he with ⟨d, hd, hfd⟩
    by_cases hc : ruleCovers rules d = true
    · rw [if_pos hc] at hfd
      cases hfd
    · rw [if_neg hc] at hfd
      cases hfd
      have hdin : d ∈ ts.map (fun t => t.description) := (mem_uniqueList d _).mp hd
      rcases List.mem_map.mp hdin with ⟨t0, ht0, hdt0⟩
      have hfind : ts.find? (fun t' => t'.description == d) ≠ none := by
        rw [Ne, List.find?_eq_none]
        push_neg
        exact ⟨t0, ht0, by simp [hdt0]⟩
      rcases Option.ne_none_iff_exists'.mp hfind with ⟨t1, ht1⟩
      refine ⟨?_, t1, ht1, ?_⟩
      · show (ts.filter (fun t => t.description == d)).length
            = ts.countP (fun t => t.description == d)
        rw [List.countP_eq_length_filter]
      · show ((ts.find? (fun t' => t'.description == d)).map
            (fun t => t.category)).getD "" = t1.category
        rw [ht1]
        rfl

/-- Witness for C7: one transaction with the scenario description and an
empty rule store; the description is reported, once, with category `""` and
count 1. -/
theorem check_missing_rules_exact_witness :
    ((check_missing_rules [demoTx] []).map (fun e => e.description)).Nodup
    ∧ ((⟨"STARBUCKKS #1234 SEATTLE WA", "", 1⟩ : MissingRule).count
        = ([demoTx] : List Transaction).countP
            (fun t => t.description
              == (⟨"STARBUCKKS #1234 SEATTLE WA", "", 1⟩ : MissingRule).description)
      ∧ ∃ t, ([demoTx] : List Transaction).find?
            (fun t' => t'.description
              == (⟨"STARBUCKKS #1234 SEATTLE WA", "", 1⟩ : MissingRule).description) = some t
          ∧ (⟨"STARBUCKKS #1234 SEATTLE WA", "", 1⟩ : MissingRule).category = t.category) :=
  ⟨(check_missing_rules_exact [demoTx] []).1,
   (check_missing_rules_exact [demoTx] []).2.2 _ (by decide)⟩

/-! ## C10 -/

/-- C10: bulk categorization treats a rule key as a literal string — the
escaped-regex containment test succeeds exactly when the key occurs verbatim
as a case-insensitive substring of the description, for every key, including
keys containing regex metacharacters. -/
theorem rule_key_matched_literally (key desc : String) :
    ruleMatches key desc = true ↔
      (key.data.map Char.toLower) <:+: (desc.data.map Char.toLower) :=
  ruleMatches_iff key desc

/-! ## Dict-operation lemmas -/

theorem dictGet_set_self (s : RuleStore) (k : String) (v : RuleInfo) :
    dictGet (dictSet s k v) k = some v := by
  rw [dictSet]
  by_cases hs : (s.find? (fun p => p.1 == k)).isSome
  · rw [if_pos hs, dictGet, List.find?_map]
    have hpf : ((fun p : String × RuleInfo => p.1 == k) ∘
        (fun p : String × RuleInfo => if p.1 == k then (k, v) else p))
        = fun p : String × RuleInfo => p.1 == k := by
      funext p
      by_cases h : (p.1 == k) = true <;> simp [Function.comp, h]
    rw [hpf]
    rcases Option.isSome_iff_exists.mp hs with ⟨q, hq⟩
    have hqk := List.find?_some hq
    have hq1 : q.1 = k := by simpa using hqk
    rw [hq]
    simp [hq1]
  · rw [if_neg hs, dictGet, List.find?_append]
    rw [Option.not_isSome_iff_eq_none] at hs
    rw [hs]
    simp

theorem dictGet_set_other (s : RuleStore) (k : String) (v : RuleInfo)
    (k2 : String) (h : k2 ≠ k) :
    dictGet (dictSet s k v) k2 = dictGet s k2 := by
  have hkk2 : (k == k2) = false := by
    simp only [beq_eq_false_iff_ne, ne_eq]
    exact fun hk => h hk.symm
  rw [dictSet]
  by_cases hs : (s.find? (fun p => p.1 == k)).isSome
  · rw [if_pos hs, dictGet, List.find?_map, dictGet]
    have hpf : ((fun p : String × RuleInfo => p.1 == k2) ∘
        (fun p : String × RuleInfo => if p.1 == k then (k, v) else p))
        = fun p : String × RuleInfo => p.1 == k2 := by
      funext p
      by_cases h1 : (p.1 == k) = true
      · have : p.1 = k := by simpa using h1
        simp [Function.comp, h1, this, hkk2]
      · simp [Function.comp, h1]
    rw [hpf]
    rcases ho : s.find? (fun p => p.1 == k2) with _ | q
    · rw [ho]
      rfl
    · have hq2 := List.find?_some ho
      have hq2' : q.1 = k2 := by simpa using hq2
      have hne : ¬ (q.1 = k) := by
        rw [hq2']
        exact h
      rw [ho]
      simp [hne]
  · rw [if_neg hs, dictGet, List.find?_append, dictGet]
    rcases ho : s.find? (fun p => p.1 == k2) with _ | q
    · rw [ho]
      simp [hkk2]
    · rw [ho]
      rfl

theorem dictGet_del_self (s : RuleStore) (k : String) :
    dictGet (dictDel s k) k = none := by
  rw [dictDel, dictGet, List.find?_filter]
  have : s.find? (fun a => (a.1 != k) ∧ (a.1 == k)) = none := by
    rw [List.find?_eq_none]
    intro x _
    simp only [bne_iff_ne, ne_eq, decide_eq_true_eq, Bool.decide_and]
    by_cases h : x.1 = k <;> simp [h]
  rw [this]
  rfl

theorem dictGet_del_other (s : RuleStore) (k k2 : String) (h : k2 ≠ k) :
    dictGet (dictDel s k) k2 = dictGet s k2 := by
  rw [dictDel, dictGet, List.find?_filter, dictGet]
  have : (s.find? (fun a => (a.1 != k) ∧ (a.1 == k2)))
      = s.find? (fun a => a.1 == k2) := by
    apply congrArg (fun p => s.find? p)
    funext a
    by_cases h2 : a.1 = k2
    · have hbne : (a.1 != k) = true := by
        simp only [bne_iff_ne, ne_eq, h2]
        exact h
      simp [h2, hbne, h]
    · simp [h2]
  rw [this]

/-! ## C4: rule-edit timestamp semantics -/

/-- C4: for a rule edit with `delete = false` — if the key is present with
the same category the store is returned unchanged (timestamp included); if
the key is present with a different category the entry is replaced by the
new category stamped `now`; if the key is absent a new rule stamped `now`
is inserted.  Other keys are untouched, so `last_modified` only advances
when the category value changes; a batch is the left-to-right composition
of these single-edit steps. -/
theorem rule_edit_semantics (rules : RuleStore) (now k c : String) :
    (∀ ri, dictGet rules k = some ri → ruleCategory ri = c →
        apply_rule_edits rules now [⟨k, c, false⟩] = rules)
    ∧ (∀ ri, dictGet rules k = some ri → ruleCategory ri ≠ c →
        dictGet (apply_rule_edits rules now [⟨k, c, false⟩]) k
            = some (.current c now)
        ∧ ∀ k2, k2 ≠ k →
            dictGet (apply_rule_edits rules now [⟨k, c, false⟩]) k2
              = dictGet rules k2)
    ∧ (dictGet rules k = none →
        dictGet (apply_rule_edits rules now [⟨k, c, false⟩]) k
            = some (.current c now)
        ∧ ∀ k2, k2 ≠ k →
            dictGet (apply_rule_edits rules now [⟨k, c, false⟩]) k2
              = dictGet rules k2)
    ∧ (∀ (e : RuleEdit) (es : List RuleEdit),
        apply_rule_edits rules now (e :: es)
          = apply_rule_edits (apply_rule_edits rules now [e]) now es) := by
  refine ⟨?_, ?_, ?_, fun e es => rfl⟩
  · intro ri hget hcat
    show (match dictGet rules k with
      | some ri => if c != ruleCategory ri then dictSet rules k (.current c now)
          else rules
      | none => dictSet rules k (.current c now)) = rules
    rw [hget]
    simp [hcat]
  · intro ri hget hcat
    have hred : apply_rule_edits rules now [⟨k, c, false⟩]
        = dictSet rules k (.current c now) := by
      show (match dictGet rules k with
        | some ri => if c != ruleCategory ri then dictSet rules k (.current c now)
            else rules
        | none => dictSet rules k (.current c now)) = _
      rw [hget]
      have : (c != ruleCategory ri) = true := by
        simp only [bne_iff_ne, ne_eq]
        exact fun hh => hcat hh.symm
      simp [this]
    rw [hred]
    exact ⟨dictGet_set_self rules k _, fun k2 hk2 => dictGet_set_other rules k _ k2 hk2⟩
  · intro hget
    have hred : apply_rule_edits rules now [⟨k, c, false⟩]
        = dictSet rules k (.current c now) := by
      show (match dictGet rules k with
        | some ri => if c != ruleCategory ri then dictSet rules k (.current c now)
            else rules
        | none => dictSet rules k (.current c now)) = _
      rw [hget]
    rw [hred]
    exact ⟨dictGet_set_self rules k _, fun k2 hk2 => dictGet_set_other rules k _ k2 hk2⟩

/-- The spec's scenario rule store under edit. -/
def demoStore : RuleStore := [("STARBUCKKS", .current "Food & Drink" "T1")]

/-- Witness for C4: re-submitting the same category leaves the store (and
timestamp `T1`) untouched; changing the category stamps `T2`; a new key is
inserted stamped `T2`. -/
theorem rule_edit_semantics_witness :
    apply_rule_edits demoStore "T2" [⟨"STARBUCKKS", "Food & Drink", false⟩]
        = demoStore
    ∧ dictGet (apply_rule_edits demoStore "T2"
        [⟨"STARBUCKKS", "Travel", false⟩]) "STARBUCKKS"
        = some (.current "Travel" "T2")
    ∧ dictGet (apply_rule_edits demoStore "T2"
        [⟨"COSTCO", "Groceries", false⟩]) "COSTCO"
        = some (.current "Groceries" "T2") :=
  ⟨(rule_edit_semantics demoStore "T2" "STARBUCKKS" "Food & Drink").1
      (.current "Food & Drink" "T1") rfl rfl,
   ((rule_edit_semantics demoStore "T2" "STARBUCKKS" "Travel").2.1
      (.current "Food & Drink" "T1") rfl (by decide)).1,
   ((rule_edit_semantics demoStore "T2" "COSTCO" "Groceries").2.2.1 rfl).1⟩

/-! ## C5: rule deletion as observed through the session callback -/

/-- C5 (code bug): the edit loop itself removes a key marked for deletion,
but `main` wires the update callback to `dict.update`, which merges and
never removes — so after the edit batch the deleted rule is still present
in the session store observed by subsequent readers. -/
theorem deleted_rule_persists_in_session :
    apply_rule_edits [("STARBUCKKS", RuleInfo.legacy "Food & Drink")] "T2"
        [⟨"STARBUCKKS", "", true⟩] = []
    ∧ observed_rules_after_edits [("STARBUCKKS", RuleInfo.legacy "Food & Drink")]
        "T2" [⟨"STARBUCKKS", "", true⟩]
        = [("STARBUCKKS", RuleInfo.legacy "Food & Drink")]
    ∧ dictGet (observed_rules_after_edits
        [("STARBUCKKS", RuleInfo.legacy "Food & Drink")]
        "T2" [⟨"STARBUCKKS", "", true⟩]) "STARBUCKKS"
        = some (RuleInfo.legacy "Food & Drink") :=
  ⟨rfl, rfl, rfl⟩

/-! ## C1: category deletion cascades -/

/-- As long as the empty string is not itself a deleted name, the sequential
per-category clearing loop acts as a single pointwise pass. -/
theorem clearTxCategories_eq_map :
    ∀ (deleted : List String), "" ∉ deleted → ∀ ts : List Transaction,
      clearTxCategories deleted ts
        = ts.map (fun t =>
            if deleted.contains t.category then { t with category := "" } else t) := by
  intro deleted
  induction deleted with
  | nil =>
    intro _ ts
    simp [clearTxCategories]
  | cons c rest ih =>
    intro hne ts
    have hcne : c ≠ "" := by
      rintro rfl
      exact hne (List.mem_cons_self _ _)
    have hrest : "" ∉ rest := fun h => hne (List.mem_cons_of_mem _ h)
    have hcont : rest.contains "" = false := by
      cases hcc : rest.contains ""
      · rfl
      · exact absurd (by simpa using hcc) hrest
    show clearTxCategories rest
        (ts.map (fun t => if t.category == c then { t with category := "" } else t))
      = _
    rw [ih hrest, List.map_map]
    refine congrArg (fun f => List.map f ts) (funext fun t => ?_)
    by_cases h1 : (t.category == c) = true
    · have h1' : t.category = c := by simpa using h1
      simp [Function.comp, h1, h1', hcont]
    · have h1f : (t.category == c) = false := by
        cases hx : (t.category == c)
        · rfl
        · exact absurd hx h1
      have hcond : (c :: rest).contains t.category = rest.contains t.category := by
        rw [List.contains_cons, h1f, Bool.false_or]
      simp only [Function.comp_apply, if_neg h1, hcond]

/-- C1: deleting a set of categories clears the category of every
transaction and rule that referenced one (keeping rule keys and timestamps,
touching nothing else), after which no transaction or rule carries a removed
category, and the removed names are absent from the resulting registry.
The hypotheses record the registry invariants: category names are nonempty
and a removed name is not simultaneously kept. -/
theorem category_deletion_cascades (edited : List (String × Bool))
    (rules : RuleStore) (ts : List Transaction)
    (hne : ∀ cat ∈ deletedNames edited, cat ≠ "")
    (hdisj : ∀ cat ∈ deletedNames edited, cat ∉ keptNames edited) :
    ((delete_categories edited rules ts).2.2.length = ts.length
      ∧ ∀ (i : Nat) (hi : i < ts.length)
          (hi' : i < (delete_categories edited rules ts).2.2.length),
          ((ts.get ⟨i, hi⟩).category ∈ deletedNames edited →
            (delete_categories edited rules ts).2.2.get ⟨i, hi'⟩
              = { ts.get ⟨i, hi⟩ with category := "" })
          ∧ ((ts.get ⟨i, hi⟩).category ∉ deletedNames edited →
            (delete_categories edited rules ts).2.2.get ⟨i, hi'⟩ = ts.get ⟨i, hi⟩))
    ∧ (∀ t ∈ (delete_categories edited rules ts).2.2,
        t.category ∉ deletedNames edited)
    ∧ ((delete_categories edited rules ts).2.1.map (fun kv => kv.1)
          = rules.map (fun kv => kv.1)
      ∧ ∀ (i : Nat) (hi : i < rules.length)
          (hi' : i < (delete_categories edited rules ts).2.1.length),
          (ruleCategory (rules.get ⟨i, hi⟩).2 ∈ deletedNames edited →
            (delete_categories edited rules ts).2.1.get ⟨i, hi'⟩
              = ((rules.get ⟨i, hi⟩).1, clearRuleCategory (rules.get ⟨i, hi⟩).2)
            ∧ ruleCategory ((delete_categories edited rules ts).2.1.get ⟨i, hi'⟩).2 = "")
          ∧ (ruleCategory (rules.get ⟨i, hi⟩).2 ∉ deletedNames edited →
            (delete_categories edited rules ts).2.1.get ⟨i, hi'⟩ = rules.get ⟨i, hi⟩))
    ∧ (∀ kv ∈ (delete_categories edited rules ts).2.1,
        ruleCategory kv.2 ∉ deletedNames edited)
    ∧ (∀ cat ∈ deletedNames edited, cat ∉ (delete_categories edited rules ts).1) := by
  have hD : "" ∉ deletedNames edited := fun h => hne "" h rfl
  by_cases hDe : (deletedNames edited).isEmpty = true
  · have hDnil : deletedNames edited = [] := by simpa using hDe
    have hts : (delete_categories edited rules ts).2.2 = ts := by
      simp [delete_categories, hDe]
    have hrl : (delete_categories edited rules ts).2.1 = rules := by
      simp [delete_categories, hDe]
    refine ⟨⟨by rw [hts], ?_⟩, ?_, ⟨by rw [hrl], ?_⟩, ?_, ?_⟩
    · intro i hi hi'
      rw [hDnil]
      exact ⟨fun h => absurd h (List.not_mem_nil _), fun _ => by
        simp [List.get_eq_getElem, hts]⟩
    · intro t _
      rw [hDnil]
      exact List.not_mem_nil _
    · intro i hi hi'
      rw [hDnil]
      exact ⟨fun h => absurd h (List.not_mem_nil _), fun _ => by
        simp [List.get_eq_getElem, hrl]⟩
    · intro kv _
      rw [hDnil]
      exact List.not_mem_nil _
    · intro cat hcat
      rw [hDnil] at hcat
      exact absurd hcat (List.not_mem_nil _)
  · have hts : (delete_categories edited rules ts).2.2
        = ts.map (fun t =>
            if (deletedNames edited).contains t.category then { t with category := "" }
            else t) := by
      rw [delete_categories]
      simp only [hDe, if_neg, Bool.false_eq_true]
      exact clearTxCategories_eq_map _ hD ts
    have hrl : (delete_categories edited rules ts).2.1
        = rules.map (fun kv =>
            if (deletedNames edited).contains (ruleCategory kv.2)
            then (kv.1, clearRuleCategory kv.2) else kv) := by
      rw [delete_categories]
      simp [hDe]
    have hcontm : ∀ s : String,
        ((deletedNames edited).contains s = true) ↔ s ∈ deletedNames edited := by
      intro s
      constructor
      · intro h; simpa using h
      · intro h; simpa using h
    have hkeys : (delete_categories edited rules ts).2.1.map (fun kv => kv.1)
        = rules.map (fun kv => kv.1) := by
      rw [hrl, List.map_map]
      refine congrArg (fun f => List.map f rules) (funext fun kv => ?_)
      show (if (deletedNames edited).contains (ruleCategory kv.2) = true
          then (kv.1, clearRuleCategory kv.2) else kv).1 = kv.1
      by_cases hc : (deletedNames edited).contains (ruleCategory kv.2) = true
      · rw [if_pos hc]
      · rw [if_neg hc]
    refine ⟨⟨by rw [hts]; simp, ?_⟩, ?_, ⟨hkeys, ?_⟩, ?_, ?_⟩
    · intro i hi hi'
      have hget : (delete_categories edited rules ts).2.2.get ⟨i, hi'⟩
          = if (deletedNames edited).contains (ts.get ⟨i, hi⟩).category
            then { ts.get ⟨i, hi⟩ with category := "" } else ts.get ⟨i, hi⟩ := by
        simp [hts, List.get_eq_getElem]
      constructor
      · intro hmem
        rw [hget, if_pos ((hcontm _).mpr hmem)]
      · intro hmem
        rw [hget, if_neg (fun hc => hmem ((hcontm _).mp hc))]
    · intro t ht
      rw [hts] at ht
      rcases List.mem_map.mp ht with ⟨t0, _, rfl⟩
      by_cases hc : (deletedNames edited).contains t0.category = true
      · rw [if_pos hc]
        exact hD
      · rw [if_neg hc]
        exact fun hmem => hc ((hcontm _).mpr hmem)
    · intro i hi hi'
      have hget : (delete_categories edited rules ts).2.1.get ⟨i, hi'⟩
          = if (deletedNames edited).contains (ruleCategory (rules.get ⟨i, hi⟩).2)
            then ((rules.get ⟨i, hi⟩).1, clearRuleCategory (rules.get ⟨i, hi⟩).2)
            else rules.get ⟨i, hi⟩ := by
        simp [hrl, List.get_eq_getElem]
      constructor
      · intro hmem
        rw [hget, if_pos ((hcontm _).mpr hmem)]
        refine ⟨rfl, ?_⟩
        cases hri : (rules.get ⟨i, hi⟩).2 <;> simp [clearRuleCategory, ruleCategory]
      · intro hmem
        rw [hget, if_neg (fun hc => hmem ((hcontm _).mp hc))]
    · intro kv hkv
      rw [hrl] at hkv
      rcases List.mem_map.mp hkv with ⟨kv0, _, rfl⟩
      by_cases hc : (deletedNames edited).contains (ruleCategory kv0.2) = true
      · rw [if_pos hc]
        have : ruleCategory (clearRuleCategory kv0.2) = "" := by
          cases kv0.2 <;> simp [clearRuleCategory, ruleCategory]
        rw [this]
        exact hD
      · rw [if_neg hc]
        exact fun hmem => hc ((hcontm _).mpr hmem)
    · intro cat hcat hmem
      have hker : cat ∈ keptNames edited := by
        have : (delete_categories edited rules ts).1
            = (keptNames edited).filter (fun c => c.trim != "") := by
          rw [delete_categories]
        rw [this] at hmem
        exact (List.mem_filter.mp hmem).1
      exact hdisj cat hcat hker

/-- Helper for concrete transactions. -/
def mkTx (desc cat : String) : Transaction :=
  { date := "2024-01-01", description := desc, amount := 1, currency := "USD"
    category := cat, card := "Visa", month := "2024-01", txType := "Sale"
    memo := "" }

/-- The spec's deletion scenario: three transactions and two rules
referencing `Shopping`. -/
def demoDelTxs : List Transaction :=
  [mkTx "AMAZON A" "Shopping", mkTx "AMAZON B" "Shopping",
   mkTx "TARGET" "Shopping"]

/-- Rules for the deletion scenario. -/
def demoDelRules : RuleStore :=
  [("AMAZON", .current "Shopping" "T1"), ("TARGET", .legacy "Shopping")]

/-- Witness for C1 at the spec's deletion scenario: after removing
`Shopping`, no transaction and no rule carries it and it is gone from the
registry. -/
theorem category_deletion_cascades_witness :
    (∀ t ∈ (delete_categories [("Shopping", true), ("Travel", false)]
        demoDelRules demoDelTxs).2.2,
        t.category ∉ deletedNames [("Shopping", true), ("Travel", false)])
    ∧ (∀ kv ∈ (delete_categories [("Shopping", true), ("Travel", false)]
        demoDelRules demoDelTxs).2.1,
        ruleCategory kv.2 ∉ deletedNames [("Shopping", true), ("Travel", false)])
    ∧ (∀ cat ∈ deletedNames [("Shopping", true), ("Travel", false)],
        cat ∉ (delete_categories [("Shopping", true), ("Travel", false)]
          demoDelRules demoDelTxs).1) :=
  have h := category_deletion_cascades [("Shopping", true), ("Travel", false)]
    demoDelRules demoDelTxs (by decide) (by decide)
  ⟨h.2.1, h.2.2.2.1, h.2.2.2.2⟩

/-! ## C6: failure behaviour of the bulk load -/

/-- A concrete prior session state. -/
def priorState : SessionState :=
  { transactions := some [mkTx "OLD" "Food & Drink"]
    categories := ["Food & Drink"]
    rules := [("OLD", .legacy "Food & Drink")] }

/-- C6 counterexample: the bulk load is not atomic.  With a prior state
loaded, a fetch sequence whose transactions step succeeds and whose
categories step fails reports failure — yet the in-memory transactions have
already been replaced, so the state is not left unchanged. -/
theorem load_failure_not_atomic :
    (download_from_s3
        ⟨.ok [mkTx "NEW" ""], .error "categories fetch failed", .ok []⟩
        priorState).2 = false
    ∧ (download_from_s3
        ⟨.ok [mkTx "NEW" ""], .error "categories fetch failed", .ok []⟩
        priorState).1 ≠ priorState :=
  ⟨rfl, by decide⟩

/-- C6 (amended): on failure the load reports `false` and leaves untouched
exactly the artifacts not yet assigned: a transactions-fetch failure leaves
the whole state unchanged; a categories-fetch failure leaves the new
transactions in place; a rules-fetch failure leaves the new transactions
and categories in place. -/
theorem load_failure_characterization (st : SessionState) (e : String)
    (cats : Except String (List String)) (rls : Except String RuleStore)
    (ts : List Transaction) (cs : List String) :
    download_from_s3 ⟨.error e, cats, rls⟩ st = (st, false)
    ∧ download_from_s3 ⟨.ok ts, .error e, rls⟩ st
        = ({ st with transactions := some ts }, false)
    ∧ download_from_s3 ⟨.ok ts, .ok cs, .error e⟩ st
        = ({ st with transactions := some ts, categories := cs }, false) :=
  ⟨rfl, rfl, rfl⟩

/-! ## C9: the persisted-rules round trip -/

/-- C9 counterexample: a legacy entry is not normalized by the load/save
round trip.  Loading an artifact holding the plain string `"Food & Drink"`
and saving it back writes the very same plain string — not a
`{category, last_modified}` object. -/
theorem legacy_rule_not_normalized :
    decodeRules (JValue.obj [("STARBUCKKS", JValue.str "Food & Drink")])
        = some [("STARBUCKKS", RuleInfo.legacy "Food & Drink")]
    ∧ encodeRules [("STARBUCKKS", RuleInfo.legacy "Food & Drink")]
        = JValue.obj [("STARBUCKKS", JValue.str "Food & Drink")]
    ∧ isObjJ (JValue.str "Food & Drink") = false :=
  ⟨rfl, rfl, rfl⟩

theorem decodeRuleInfo_encodeRuleInfo (ri : RuleInfo) :
    decodeRuleInfo (encodeRuleInfo ri) = some ri := by
  cases ri <;> rfl

/-- C9 (amended): saving the in-memory rule store and loading it back
reproduces the store exactly — same keys, categories and timestamps — with
legacy-form entries preserved in legacy form rather than normalized. -/
theorem rules_round_trip (s : RuleStore) :
    decodeRules (encodeRules s) = some s := by
  induction s with
  | nil => rfl
  | cons kv rest ih =>
    rw [encodeRules, decodeRules] at ih ⊢
    rw [List.map_cons, List.mapM_cons]
    rw [decodeRuleInfo_encodeRuleInfo, ih]
    rfl

end FinFront
